import Mathlib

/-!
Verification of the MPI task-distribution and statistics-gathering core of
`orphics/analysis/pipeline.py` (class `MPIStats`, function `mpi_distribute`,
class `Pipeline`).

The embedding is shallow: Python integers become `Nat`, numpy float arrays
become rational matrices (`List (List ℚ)`), fallible code (assertions,
division by zero) returns `Except` or `Option`, and the blocking
point-to-point message exchange is modelled by pools of `(source, tag,
payload)` messages looked up by `(source, tag)`, exactly as MPI matches a
blocking receive against a send.
-/

namespace Orphics

/-! ## Numeric arrays

Numpy arrays as used by `MPIStats`: 1d vectors and (possibly 2d) arrays of
float64, embedded as rational lists / lists of rows.  `+` on arrays is
elementwise, `/` by a scalar is elementwise, `.shape` is the row-length
profile. -/

/-- A 1d numpy vector. -/
abbrev Vec := List ℚ

/-- A 2d numpy array: a list of rows. -/
abbrev Mat := List Vec

/-- Elementwise `+` on 1d vectors. -/
def vecAdd (a b : Vec) : Vec := List.zipWith (· + ·) a b

/-- Elementwise `+` on 2d arrays. -/
def arrAdd (a b : Mat) : Mat := List.zipWith vecAdd a b

/-- The `.shape` of an array, as the list of row lengths (for a rectangular
`r × c` array this is `replicate r c`, carrying the same information as the
numpy shape tuple `(r, c)`). -/
def matShape (m : Mat) : List Nat := m.map List.length

/-- Elementwise division of an array by a scalar (`arr /= c`). -/
def arrDiv (m : Mat) (c : ℚ) : Mat := m.map (fun row => row.map (· / c))

/-- Sum of a list of arrays, accumulated left to right starting from the
first element (an empty list sums to the empty array). -/
def matsSum (l : List Mat) : Mat :=
  match l with
  | [] => []
  | a :: r => r.foldl arrAdd a

/-- The all-zero array of a given shape. -/
def zeroMat (s : List Nat) : Mat := s.map (fun n => List.replicate n (0 : ℚ))

/-! ## Errors

`pipeline.py` signals misconfiguration with `assert` (mapped to
`invalidConfiguration`, the spec's InvalidConfiguration) and would raise
`ZeroDivisionError` on `divmod(_, 0)` / `_ % 0` (mapped to
`divisionByZero`). -/

/-- Failure modes of the pure setup code in `pipeline.py`. -/
inductive PipeError where
  | invalidConfiguration : PipeError
  | divisionByZero : PipeError
deriving DecidableEq, Repr

/-! ## `mpi_distribute` (pipeline.py lines 136-145) -/

/-- `np.cumsum` on a list of naturals. -/
def cumsum : List Nat → List Nat
  | [] => []
  | x :: xs => x :: (cumsum xs).map (x + ·)

/-- The `num_each` array built by `mpi_distribute`: `[min_each]*avail_cores`
with the final `rem` entries incremented (`num_each[-rem:] += 1`), where
`min_each, rem = divmod(num_tasks, avail_cores)`. -/
def num_each_of (num_tasks avail_cores : Nat) : List Nat :=
  List.replicate (avail_cores - num_tasks % avail_cores) (num_tasks / avail_cores) ++
    List.replicate (num_tasks % avail_cores) (num_tasks / avail_cores + 1)

/-- Python's slice `task_range[x:y]` of `task_range = range(num_tasks)`. -/
def sliceRange (num_tasks x y : Nat) : List Nat :=
  ((List.range num_tasks).drop x).take (y - x)

/-- The `task_dist` list built by `mpi_distribute`:
`[task_range[x:y] for x,y in zip([0]+cumul[:-1],cumul)]` with
`cumul = np.cumsum(num_each).tolist()`. -/
def task_dist_of (num_tasks avail_cores : Nat) : List (List Nat) :=
  ((0 :: (cumsum (num_each_of num_tasks avail_cores)).dropLast).zip
      (cumsum (num_each_of num_tasks avail_cores))).map
    (fun p => sliceRange num_tasks p.1 p.2)

/-- `mpi_distribute(num_tasks, avail_cores)`.  The source asserts
`avail_cores <= num_tasks`; with `avail_cores = 0` the subsequent
`divmod(num_tasks, 0)` would raise, which we surface as `divisionByZero`. -/
def mpi_distribute (num_tasks avail_cores : Nat) :
    Except PipeError (List Nat × List (List Nat)) :=
  if avail_cores ≤ num_tasks then
    if avail_cores = 0 then .error .divisionByZero
    else .ok (num_each_of num_tasks avail_cores, task_dist_of num_tasks avail_cores)
  else .error .invalidConfiguration

/-! ### Properties of `mpi_distribute` -/

/-- Running sums of `counts` starting from the offset `start`. -/
def cumsumFrom (start : Nat) : List Nat → List Nat
  | [] => []
  | c :: cs => (start + c) :: cumsumFrom (start + c) cs

theorem cumsum_map_shift (start : Nat) (l : List Nat) :
    (cumsum l).map (start + ·) = cumsumFrom start l := by
  induction l generalizing start with
  | nil => rfl
  | cons c cs ih =>
    show (start + c) :: ((cumsum cs).map (c + ·)).map (start + ·) = _
    rw [List.map_map]
    have : ((start + ·) ∘ (c + ·)) = ((start + c) + ·) := by
      funext x; simp [Function.comp]; omega
    rw [this, ih]
    rfl

theorem cumsum_eq_cumsumFrom (l : List Nat) : cumsum l = cumsumFrom 0 l := by
  have := cumsum_map_shift 0 l
  simpa using this

/-- Recursive form of the slicing: chop `range n` into consecutive blocks of
the given sizes, starting at `start`. -/
def chunks (n : Nat) : Nat → List Nat → List (List Nat)
  | _, [] => []
  | start, c :: cs => sliceRange n start (start + c) :: chunks n (start + c) cs

theorem zip_cumsum_eq_chunks (n : Nat) (start : Nat) (counts : List Nat) :
    ((start :: (cumsumFrom start counts).dropLast).zip (cumsumFrom start counts)).map
        (fun p => sliceRange n p.1 p.2) =
      chunks n start counts := by
  induction counts generalizing start with
  | nil => rfl
  | cons c cs ih =>
    cases cs with
    | nil => rfl
    | cons d ds =>
      show ((start :: (((start + c) :: cumsumFrom (start + c) (d :: ds)).dropLast)).zip
          ((start + c) :: cumsumFrom (start + c) (d :: ds))).map
            (fun p => sliceRange n p.1 p.2) = _
      rw [List.dropLast_cons_of_ne_nil (by simp [cumsumFrom])]
      rw [List.zip_cons_cons, List.map_cons]
      rw [ih (start + c)]
      rfl

theorem task_dist_eq_chunks (n a : Nat) :
    task_dist_of n a = chunks n 0 (num_each_of n a) := by
  unfold task_dist_of
  rw [cumsum_eq_cumsumFrom]
  exact zip_cumsum_eq_chunks n 0 (num_each_of n a)

theorem drop_range' (s m k : Nat) :
    (List.range' s m).drop k = List.range' (s + k) (m - k) := by
  induction k generalizing s m with
  | zero => simp
  | succ k ih =>
    cases m with
    | zero => simp
    | succ m =>
      show (List.range' (s + 1) m).drop k = _
      rw [ih (s + 1) m]
      congr 1 <;> omega

theorem take_range' (s m k : Nat) :
    (List.range' s m).take k = List.range' s (min k m) := by
  induction m generalizing s k with
  | zero => simp
  | succ m ih =>
    cases k with
    | zero => simp
    | succ k =>
      show s :: (List.range' (s + 1) m).take k = _
      rw [ih (s + 1) k]
      have : min (k + 1) (m + 1) = min k m + 1 := by omega
      rw [this]
      rfl

theorem sliceRange_eq_range' (n start c : Nat) (h : start + c ≤ n) :
    sliceRange n start (start + c) = List.range' start c := by
  unfold sliceRange
  rw [List.range_eq_range', drop_range', take_range']
  have h1 : start + c - start = c := by omega
  have h2 : min c (n - start) = c := by omega
  simp [h1, h2]

theorem chunks_join (n : Nat) (start : Nat) (counts : List Nat)
    (h : start + counts.sum ≤ n) :
    (chunks n start counts).flatten = List.range' start counts.sum := by
  induction counts generalizing start with
  | nil => rfl
  | cons c cs ih =>
    have hsum : (c :: cs).sum = c + cs.sum := by simp
    show (sliceRange n start (start + c) :: chunks n (start + c) cs).flatten = _
    rw [List.flatten_cons]
    rw [sliceRange_eq_range' n start c (by omega)]
    rw [ih (start + c) (by omega)]
    rw [hsum, show start + c = start + 1 * c by omega, List.range'_append]
    congr 1
    omega

theorem num_each_sum (n a : Nat) (ha : 1 ≤ a) :
    (num_each_of n a).sum = n := by
  unfold num_each_of
  have hmod : n % a < a := Nat.mod_lt _ ha
  have hdm : a * (n / a) + n % a = n := Nat.div_add_mod n a
  rw [List.sum_append, List.sum_replicate, List.sum_replicate, smul_eq_mul, smul_eq_mul]
  have expand : n % a * (n / a + 1) = n % a * (n / a) + n % a := by ring
  rw [expand, ← add_assoc, ← Nat.add_mul, Nat.sub_add_cancel (le_of_lt hmod)]
  omega

theorem num_each_mem (n a x : Nat) (hx : x ∈ num_each_of n a) :
    x = n / a ∨ x = n / a + 1 := by
  unfold num_each_of at hx
  rcases List.mem_append.mp hx with h | h
  · exact Or.inl (List.eq_of_mem_replicate h)
  · exact Or.inr (List.eq_of_mem_replicate h)

theorem num_each_length (n a : Nat) (ha : 1 ≤ a) :
    (num_each_of n a).length = a := by
  unfold num_each_of
  have hmod : n % a < a := Nat.mod_lt _ ha
  simp
  omega

/-- C1: for `totalTasks ≥ availableSlots ≥ 1` the distribution succeeds, the
per-slot counts sum to `totalTasks`, any two counts differ by at most one,
and the concatenation of the per-slot ranges in slot order is exactly
`0, 1, ..., totalTasks - 1`. -/
theorem mpi_distribute_partition (n a : Nat) (h1 : 1 ≤ a) (h2 : a ≤ n) :
    mpi_distribute n a = .ok (num_each_of n a, task_dist_of n a) ∧
      (num_each_of n a).sum = n ∧
      (∀ x ∈ num_each_of n a, ∀ y ∈ num_each_of n a, x ≤ y + 1) ∧
      (task_dist_of n a).flatten = List.range n := by
  refine ⟨?_, num_each_sum n a h1, ?_, ?_⟩
  · unfold mpi_distribute
    rw [if_pos h2, if_neg (by omega)]
  · intro x hx y hy
    rcases num_each_mem n a x hx with rfl | rfl <;>
      rcases num_each_mem n a y hy with rfl | rfl <;> omega
  · rw [task_dist_eq_chunks, chunks_join n 0 _ (by rw [num_each_sum n a h1]; omega)]
    rw [num_each_sum n a h1, List.range_eq_range']

/-- Witness for C1 at `totalTasks = 7`, `availableSlots = 3`. -/
theorem mpi_distribute_partition_witness :
    mpi_distribute 7 3 = .ok (num_each_of 7 3, task_dist_of 7 3) ∧
      (num_each_of 7 3).sum = 7 ∧
      (∀ x ∈ num_each_of 7 3, ∀ y ∈ num_each_of 7 3, x ≤ y + 1) ∧
      (task_dist_of 7 3).flatten = List.range 7 :=
  mpi_distribute_partition 7 3 (by decide) (by decide)

/-- C2: every slot receives the base count `totalTasks / availableSlots`,
except that the last `totalTasks mod availableSlots` slots receive one extra
task each; the extra tasks never go to the leading slots, so slot 0 always
holds the minimum count.  In particular `mpi_distribute(10,4)` yields counts
`[2,2,3,3]` and `mpi_distribute(7,3)` yields ranges `[[0,1],[2,3],[4,5,6]]`. -/
theorem mpi_distribute_remainder_trailing :
    (∀ n a : Nat, 1 ≤ a → a ≤ n →
      (num_each_of n a)[0]? = some (n / a) ∧
      (∀ i : Nat, i < a - n % a → (num_each_of n a)[i]? = some (n / a)) ∧
      (∀ i : Nat, a - n % a ≤ i → i < a → (num_each_of n a)[i]? = some (n / a + 1)) ∧
      (∀ x ∈ num_each_of n a, n / a ≤ x)) ∧
    mpi_distribute 10 4 = .ok ([2, 2, 3, 3], task_dist_of 10 4) ∧
    mpi_distribute 7 3 = .ok (num_each_of 7 3, [[0, 1], [2, 3], [4, 5, 6]]) := by
  refine ⟨?_, by rfl, by rfl⟩
  intro n a ha han
  have hmod : n % a < a := Nat.mod_lt _ ha
  have hlow : ∀ i : Nat, i < a - n % a → (num_each_of n a)[i]? = some (n / a) := by
    intro i hi
    unfold num_each_of
    rw [List.getElem?_append_left (by simpa using hi), List.getElem?_replicate, if_pos hi]
  refine ⟨hlow 0 (by omega), hlow, ?_, ?_⟩
  · intro i hi1 hi2
    unfold num_each_of
    rw [List.getElem?_append_right (by simpa using hi1), List.getElem?_replicate]
    rw [if_pos (by simp; omega)]
  · intro x hx
    rcases num_each_mem n a x hx with rfl | rfl <;> omega

/-- Witness for C2 at `totalTasks = 10`, `availableSlots = 4`. -/
theorem mpi_distribute_remainder_trailing_witness :
    (num_each_of 10 4)[0]? = some (10 / 4) ∧
      (∀ i : Nat, i < 4 - 10 % 4 → (num_each_of 10 4)[i]? = some (10 / 4)) ∧
      (∀ i : Nat, 4 - 10 % 4 ≤ i → i < 4 → (num_each_of 10 4)[i]? = some (10 / 4 + 1)) ∧
      (∀ x ∈ num_each_of 10 4, 10 / 4 ≤ x) :=
  mpi_distribute_remainder_trailing.1 10 4 (by decide) (by decide)

/-! ## `Pipeline.__init__` (pipeline.py lines 177-214) -/

/-- Python's `range(0, stop, step)` for `step ≥ 1`: the multiples of `step`
below `stop`. -/
def pyRangeStep (stop step : Nat) : List Nat :=
  List.range' 0 ((stop + step - 1) / step) step

/-- The body of `Pipeline.__init__` once the stride is fixed:
`avail_cores = wsize/stride`, `participants = range(0,wsize,stride)`,
`num_each, task_dist = mpi_distribute(num_tasks, avail_cores)`, and the
final `assert sum(num_each)==num_tasks`.  Returns the participants, the
per-slot counts and the per-slot task ranges. -/
def pipelineBody (wsize num_tasks stride : Nat) :
    Except PipeError (List Nat × List Nat × List (List Nat)) :=
  match mpi_distribute num_tasks (wsize / stride) with
  | .error e => .error e
  | .ok (ne, td) =>
      if ne.sum = num_tasks then .ok (pyRangeStep wsize stride, ne, td)
      else .error .invalidConfiguration

/-- `Pipeline.__init__(comm, num_tasks, stride)` up to the formation of the
active group.  With an explicit stride the source asserts
`wsize % stride == 0` (and `wsize % 0` would raise); with `stride=None` the
stride silently becomes 1. -/
def pipelineInit (wsize num_tasks : Nat) :
    Option Nat → Except PipeError (List Nat × List Nat × List (List Nat))
  | some s =>
      if s = 0 then .error .divisionByZero
      else if wsize % s = 0 then pipelineBody wsize num_tasks s
      else .error .invalidConfiguration
  | none => pipelineBody wsize num_tasks 1

/-- C5: oversubscription (`availableSlots > totalTasks`) is rejected with
InvalidConfiguration, both by `mpi_distribute` itself and by
`Pipeline.__init__` (whose setup is pure: the error is raised before any
group split or message exchange). -/
theorem oversubscription_invalid :
    (∀ n a : Nat, n < a → mpi_distribute n a = .error .invalidConfiguration) ∧
    (∀ w nt s : Nat, 1 ≤ s → s ∣ w → nt < w / s →
      pipelineInit w nt (some s) = .error .invalidConfiguration) ∧
    (∀ w nt : Nat, nt < w → pipelineInit w nt none = .error .invalidConfiguration) := by
  have hmpi : ∀ n a : Nat, n < a → mpi_distribute n a = .error .invalidConfiguration := by
    intro n a h
    unfold mpi_distribute
    rw [if_neg (by omega)]
  refine ⟨hmpi, ?_, ?_⟩
  · intro w nt s hs hdvd hlt
    show (if s = 0 then _ else if w % s = 0 then pipelineBody w nt s else _) = _
    rw [if_neg (show ¬s = 0 by omega), if_pos (Nat.mod_eq_zero_of_dvd hdvd)]
    unfold pipelineBody
    rw [hmpi nt (w / s) hlt]
  · intro w nt hlt
    show pipelineBody w nt 1 = _
    unfold pipelineBody
    rw [hmpi nt (w / 1) (by rw [Nat.div_one]; exact hlt)]

/-- Witness for C5: 5 slots for 3 tasks, and a pipeline of 8 ranks with
stride 2 (hence 4 slots) given 2 tasks. -/
theorem oversubscription_invalid_witness :
    mpi_distribute 3 5 = .error .invalidConfiguration ∧
      pipelineInit 8 2 (some 2) = .error .invalidConfiguration ∧
      pipelineInit 4 3 none = .error .invalidConfiguration :=
  ⟨oversubscription_invalid.1 3 5 (by decide),
    oversubscription_invalid.2.1 8 2 2 (by decide) (by decide) (by decide),
    oversubscription_invalid.2.2 4 3 (by decide)⟩

theorem pyRangeStep_eq (w s : Nat) (hs : 1 ≤ s) (hd : s ∣ w) :
    pyRangeStep w s = List.range' 0 (w / s) s := by
  unfold pyRangeStep
  obtain ⟨m, rfl⟩ := hd
  congr 1
  have h1 : s * m + s - 1 = s - 1 + s * m := by omega
  rw [h1, Nat.add_mul_div_left _ _ (show 0 < s by omega),
    Nat.div_eq_of_lt (show s - 1 < s by omega),
    Nat.mul_div_cancel_left _ (show 0 < s by omega)]
  omega

theorem pyRangeStep_mem (w s r : Nat) (hs : 1 ≤ s) (hd : s ∣ w) :
    r ∈ pyRangeStep w s ↔ s ∣ r ∧ r < w := by
  rw [pyRangeStep_eq w s hs hd, List.mem_range']
  constructor
  · rintro ⟨i, hi, rfl⟩
    refine ⟨by rw [Nat.zero_add]; exact dvd_mul_right s i, ?_⟩
    have h1 : s * i < s * (w / s) :=
      mul_lt_mul_of_pos_left hi (show (0:ℕ) < s by omega)
    rw [Nat.mul_div_cancel' hd] at h1
    omega
  · rintro ⟨⟨i, rfl⟩, hlt⟩
    refine ⟨i, ?_, by omega⟩
    have h1 : s * i < s * (w / s) := by
      rw [Nat.mul_div_cancel' hd]; exact hlt
    exact lt_of_mul_lt_mul_left h1 (by omega)

theorem pyRangeStep_get (w s r : Nat) (hs : 1 ≤ s) (hd : s ∣ w)
    (hr : s ∣ r) (hlt : r < w) :
    (pyRangeStep w s)[r / s]? = some r := by
  rw [pyRangeStep_eq w s hs hd]
  have hidx : r / s < w / s := by
    obtain ⟨i, rfl⟩ := hr
    rw [Nat.mul_div_cancel_left _ (by omega : 0 < s)]
    have : s * i < s * (w / s) := by rw [Nat.mul_div_cancel' hd]; exact hlt
    exact Nat.lt_of_mul_lt_mul_left this
  rw [List.getElem?_eq_getElem (by simpa using hidx)]
  rw [List.getElem_range']
  rw [Nat.zero_add]
  exact congrArg some (Nat.mul_div_cancel' hr)

/-- C6: with an explicit stride, group formation requires
`globalSize mod stride = 0` (else InvalidConfiguration); when the stride
divides the global size, `range(0, wsize, stride)` has exactly
`globalSize / stride` entries — the available slots — its members are
exactly the global ranks that are multiples of the stride below the global
size, it is strictly ascending (so the rank-keyed split preserves global
rank order), rank `r` sits at group position `r / stride`, and a
successful `Pipeline.__init__` publishes exactly this participant list. -/
theorem pipeline_striding (w nt s : Nat) (hs : 1 ≤ s) :
    (w % s ≠ 0 → pipelineInit w nt (some s) = .error .invalidConfiguration) ∧
    (s ∣ w →
      (pyRangeStep w s).length = w / s ∧
      (∀ r : Nat, r ∈ pyRangeStep w s ↔ s ∣ r ∧ r < w) ∧
      List.Pairwise (· < ·) (pyRangeStep w s) ∧
      (∀ r : Nat, s ∣ r → r < w → (pyRangeStep w s)[r / s]? = some r) ∧
      (∀ parts ne td, pipelineInit w nt (some s) = .ok (parts, ne, td) →
        parts = pyRangeStep w s)) := by
  constructor
  · intro hmod
    show (if s = 0 then _ else if w % s = 0 then pipelineBody w nt s else _) = _
    rw [if_neg (show ¬s = 0 by omega), if_neg hmod]
  · intro hd
    refine ⟨?_, fun r => pyRangeStep_mem w s r hs hd, ?_,
      fun r => pyRangeStep_get w s r hs hd, ?_⟩
    · rw [pyRangeStep_eq w s hs hd]; simp
    · rw [pyRangeStep_eq w s hs hd]
      exact List.pairwise_lt_range' 0 (w / s) s (by omega)
    · intro parts ne td h
      have h' : pipelineBody w nt s = .ok (parts, ne, td) := by
        have hstep : pipelineInit w nt (some s) = pipelineBody w nt s := by
          show (if s = 0 then _ else if w % s = 0 then pipelineBody w nt s else _) = _
          rw [if_neg (show ¬s = 0 by omega), if_pos (Nat.mod_eq_zero_of_dvd hd)]
        rw [← hstep]; exact h
      unfold pipelineBody at h'
      split at h'
      · simp at h'
      · split at h'
        · injection h' with h2
          rw [Prod.mk.injEq] at h2
          exact h2.1.symm
        · simp at h'

/-- Witness for C6: 8 ranks with stride 3 is rejected; with stride 2 the
participants are the even ranks and rank 6 has group rank 3. -/
theorem pipeline_striding_witness :
    pipelineInit 8 5 (some 3) = .error .invalidConfiguration ∧
      (pyRangeStep 8 2)[6 / 2]? = some 6 := by
  refine ⟨(pipeline_striding 8 5 3 (by decide)).1 (by decide), ?_⟩
  exact ((pipeline_striding 8 7 2 (by decide)).2 (by decide)).2.2.2.1 6 (by decide) (by decide)

/-! ## `Pipeline.distribute` (pipeline.py lines 218-226) -/

/-- The list of destinations the group leader sends the buffer to in
`Pipeline.distribute`: the source loops `for i in range(self.msize)`. -/
def distributeSends (msize : Nat) : List Nat := List.range msize

/-- C7 evaluation: with three active members the leader's send loop targets
`[0, 1, 2]` — it includes the leader itself (group rank 0), for which no
matching receive is ever posted; the spec's `range(1, msize)` behaviour
would be `[1, 2]`. -/
theorem distribute_sends_include_self :
    distributeSends 3 = [0, 1, 2] ∧ 0 ∈ distributeSends 3 ∧
      distributeSends 3 ≠ (List.range 3).drop 1 := by
  decide

/-! ## `MPIStats` local accumulation (pipeline.py lines 19-55)

`MPIStats` keeps two per-label dictionaries: `little_stack` (running
elementwise sum) and `little_stack_count` (number of contributions), always
updated together by `add_to_stack`; and `vectors` (list of 1d samples)
updated by `add_to_stats`.  Dictionaries with their deterministic
per-process enumeration order are embedded as association lists: one entry
per label, in registration order. -/

/-- One label's slot of `little_stack` / `little_stack_count`. -/
structure StackEntry where
  label : String
  sum : Mat
  count : Nat
deriving DecidableEq, Repr

/-- The paired `little_stack` / `little_stack_count` dictionaries. -/
abbrev StackState := List StackEntry

/-- `add_to_stack(label, arr)`: a missing label is created as `0.` with
count 0 and then `+= arr` / `+= 1` is applied, so a fresh entry holds
`0. + arr = arr` (scalar-array broadcast) with count 1; an existing entry
gets `+= arr` elementwise and `+= 1`. -/
def add_to_stack : StackState → String → Mat → StackState
  | [], label, arr => [⟨label, arr, 1⟩]
  | e :: rest, label, arr =>
      if e.label = label then ⟨e.label, arrAdd e.sum arr, e.count + 1⟩ :: rest
      else e :: add_to_stack rest label arr

/-- Read one label's `(little_stack[label], little_stack_count[label])`. -/
def stackLookup : StackState → String → Option (Mat × Nat)
  | [], _ => none
  | e :: rest, label =>
      if e.label = label then some (e.sum, e.count) else stackLookup rest label

/-- The `vectors` dictionary: per label, the list of appended 1d samples in
insertion order. -/
abbrev StatsState := List (String × List Vec)

/-- `add_to_stats(label, vector)`: append to the label's list, creating the
label on first use. -/
def add_to_stats : StatsState → String → Vec → StatsState
  | [], label, v => [(label, [v])]
  | e :: rest, label, v =>
      if e.1 = label then (e.1, e.2 ++ [v]) :: rest
      else e :: add_to_stats rest label v

/-! ### C10: the accumulator invariant -/

/-- Replay a whole sequence of `add_to_stack` calls from a fresh
`MPIStats`. -/
def runStack (calls : List (String × Mat)) : StackState :=
  calls.foldl (fun st c => add_to_stack st c.1 c.2) []

/-- The arrays supplied for one label, in call order. -/
def arrsOf (calls : List (String × Mat)) (label : String) : List Mat :=
  (calls.filter (fun c => c.1 == label)).map (fun c => c.2)

theorem stackLookup_add_same (st : StackState) (label : String) (arr : Mat) :
    stackLookup (add_to_stack st label arr) label =
      match stackLookup st label with
      | none => some (arr, 1)
      | some (s0, c) => some (arrAdd s0 arr, c + 1) := by
  induction st with
  | nil => simp [add_to_stack, stackLookup]
  | cons e rest ih =>
    by_cases he : e.label = label
    · simp [add_to_stack, stackLookup, he]
    · simp [add_to_stack, stackLookup, he, ih]

theorem stackLookup_add_other (st : StackState) (label label' : String) (arr : Mat)
    (h : label' ≠ label) :
    stackLookup (add_to_stack st label arr) label' = stackLookup st label' := by
  induction st with
  | nil => simp [add_to_stack, stackLookup, Ne.symm h]
  | cons e rest ih =>
    by_cases he : e.label = label
    · have hne : ¬e.label = label' := fun hh => h (hh ▸ he.symm ▸ rfl)
      simp [add_to_stack, stackLookup, he, hne, h, Ne.symm h]
    · by_cases h2 : e.label = label'
      · simp [add_to_stack, stackLookup, he, h2, h, Ne.symm h]
      · simp [add_to_stack, stackLookup, he, h2, h, Ne.symm h, ih]

theorem runStack_lookup (calls : List (String × Mat)) (label : String) :
    stackLookup (runStack calls) label =
      match arrsOf calls label with
      | [] => none
      | a :: as => some (as.foldl arrAdd a, (a :: as).length) := by
  induction calls using List.reverseRecOn with
  | nil => rfl
  | append_singleton calls c ih =>
    obtain ⟨l, arr⟩ := c
    have hrun : runStack (calls ++ [(l, arr)]) = add_to_stack (runStack calls) l arr := by
      unfold runStack
      rw [List.foldl_append]
      rfl
    have harrs : ∀ lab, arrsOf (calls ++ [(l, arr)]) lab =
        arrsOf calls lab ++ (if l == lab then [arr] else []) := by
      intro lab
      unfold arrsOf
      rw [List.filter_append, List.map_append]
      by_cases h : l = lab
      · subst h; simp
      · have hbeq : (l == lab) = false := beq_eq_false_iff_ne.mpr h
        simp [List.filter, hbeq]
    rw [hrun, harrs label]
    by_cases h : label = l
    · subst h
      rw [stackLookup_add_same, ih]
      rcases hcase : arrsOf calls label with _ | ⟨a, as⟩ <;>
        simp [List.foldl_append]
    · rw [stackLookup_add_other _ _ _ _ h, ih]
      have : (if l == label then [arr] else []) = ([] : List Mat) := by
        simp [Ne.symm h]
      rw [this, List.append_nil]

theorem vecAdd_zero_left (v : Vec) (n : Nat) (h : v.length = n) :
    vecAdd (List.replicate n (0 : ℚ)) v = v := by
  induction v generalizing n with
  | nil => subst h; rfl
  | cons x xs ih =>
    subst h
    show ((0 : ℚ) + x) :: vecAdd (List.replicate xs.length 0) xs = x :: xs
    rw [zero_add, ih xs.length rfl]

theorem zeroMat_arrAdd (a : Mat) (s : List Nat) (h : matShape a = s) :
    arrAdd (zeroMat s) a = a := by
  induction a generalizing s with
  | nil => subst h; rfl
  | cons row rows ih =>
    subst h
    show vecAdd (List.replicate row.length 0) row ::
      arrAdd (zeroMat (matShape rows)) rows = row :: rows
    rw [vecAdd_zero_left row row.length rfl, ih (matShape rows) rfl]

/-- C10: after any sequence of `add_to_stack` calls whose arrays for a given
label all share one shape, the stored count for that label is the number of
calls made with it and the stored running sum is the elementwise sum
(starting from zero) of all arrays passed for it. -/
theorem add_to_stack_invariant (calls : List (String × Mat)) (label : String)
    (s : List Nat) (hne : arrsOf calls label ≠ [])
    (hsh : ∀ m ∈ arrsOf calls label, matShape m = s) :
    stackLookup (runStack calls) label =
      some ((arrsOf calls label).foldl arrAdd (zeroMat s),
        (arrsOf calls label).length) := by
  rcases hcase : arrsOf calls label with _ | ⟨a, as⟩
  · exact absurd hcase hne
  · rw [runStack_lookup, hcase]
    have hsa : matShape a = s := by
      apply hsh; rw [hcase]; exact List.mem_cons_self a as
    rw [List.foldl_cons, zeroMat_arrAdd a s hsa]

/-- Witness for C10 on a three-call interleaved sequence. -/
theorem add_to_stack_invariant_witness :
    stackLookup (runStack [("a", [[1, 2]]), ("b", [[5]]), ("a", [[3, 4]])]) "a" =
      some ((arrsOf [("a", [[1, 2]]), ("b", [[5]]), ("a", [[3, 4]])] "a").foldl
          arrAdd (zeroMat [2]),
        (arrsOf [("a", [[1, 2]]), ("b", [[5]]), ("a", [[3, 4]])] "a").length) :=
  add_to_stack_invariant [("a", [[1, 2]]), ("b", [[5]]), ("a", [[3, 4]])] "a" [2]
    (by decide) (by decide)

/-! ## Blocking point-to-point message exchange

A send deposits `(source, tag, payload)` into a pool; a blocking receive
`Recv(source=c, tag=t)` extracts the matching message.  The pool order
models arrival order; MPI matching is by `(source, tag)`, so a receive
scans for the first matching message. -/

/-- A pool of pending messages `(source, tag, payload)`. -/
abbrev Pool (α : Type) := List (Nat × Nat × α)

/-- The matching key of a message: `(source, tag)`. -/
def keyOf {α : Type} (m : Nat × Nat × α) : Nat × Nat := (m.1, m.2.1)

/-- A blocking receive: the first pooled message from `src` with tag `tag`
(`none` models a receive that blocks forever because no matching send
exists). -/
def recv {α : Type} : Pool α → Nat → Nat → Option α
  | [], _, _ => none
  | m :: rest, src, tag =>
      if keyOf m = (src, tag) then some m.2.2 else recv rest src tag

/-- The messages produced by one sender loop
`for k, label in enumerate(keys): send(payload[k], tag = base + k)`,
starting at label index `k0`, from rank `c`. -/
def mkBlock {α : Type} (c base : Nat) : Nat → List α → Pool α
  | _, [] => []
  | k, x :: xs => (c, base + k, x) :: mkBlock c base (k + 1) xs

/-- One whole send phase: rank `c0` sends its payload list, then rank
`c0 + 1`, and so on. -/
def mkPool {α : Type} (base : Nat) : Nat → List (List α) → Pool α
  | _, [] => []
  | c, ps :: rest => mkBlock c base 0 ps ++ mkPool base (c + 1) rest

theorem recv_append {α : Type} (p1 p2 : Pool α) (src tag : Nat) :
    recv (p1 ++ p2) src tag = (recv p1 src tag).or (recv p2 src tag) := by
  induction p1 with
  | nil => rfl
  | cons m rest ih =>
    show (if keyOf m = (src, tag) then some m.2.2 else recv (rest ++ p2) src tag) = _
    by_cases h : keyOf m = (src, tag)
    · simp [recv, h]
    · simp [recv, h, ih]

theorem recv_mkBlock_ne {α : Type} (c base k0 src tag : Nat) (xs : List α)
    (h : src ≠ c) : recv (mkBlock c base k0 xs) src tag = none := by
  induction xs generalizing k0 with
  | nil => rfl
  | cons x xs ih =>
    show (if keyOf (c, base + k0, x) = (src, tag) then _ else _) = _
    rw [if_neg (by simp [keyOf]; intro hc; exact absurd hc.symm h)]
    exact ih (k0 + 1)

theorem recv_mkBlock_self {α : Type} (c base k0 k : Nat) (xs : List α) :
    recv (mkBlock c base k0 xs) c (base + k) =
      if k0 ≤ k then xs[k - k0]? else none := by
  induction xs generalizing k0 with
  | nil =>
    simp only [mkBlock, recv, List.getElem?_nil]
    split <;> rfl
  | cons x xs ih =>
    show (if keyOf (c, base + k0, x) = (c, base + k) then some x else _) = _
    by_cases hk : k = k0
    · subst hk
      rw [if_pos (by simp [keyOf])]
      rw [if_pos (le_refl k)]
      simp
    · rw [if_neg (by simp [keyOf]; omega)]
      rw [ih (k0 + 1)]
      by_cases hle : k0 ≤ k
      · have hlt : k0 + 1 ≤ k := by omega
        rw [if_pos hlt, if_pos hle]
        have : k - k0 = (k - (k0 + 1)) + 1 := by omega
        rw [this]
        rcases xs with _ | ⟨y, ys⟩ <;> simp
      · rw [if_neg (by omega), if_neg hle]

theorem recv_mkPool_lt {α : Type} (base c0 c tag : Nat) (pss : List (List α))
    (h : c < c0) : recv (mkPool base c0 pss) c tag = none := by
  induction pss generalizing c0 with
  | nil => rfl
  | cons ps rest ih =>
    show recv (mkBlock c0 base 0 ps ++ mkPool base (c0 + 1) rest) c tag = none
    rw [recv_append, recv_mkBlock_ne _ _ _ _ _ _ (by omega), ih (c0 + 1) (by omega)]
    rfl

theorem recv_mkPool {α : Type} (base c0 c k : Nat) (pss : List (List α))
    (hc : c0 ≤ c) :
    recv (mkPool base c0 pss) c (base + k) =
      (pss[c - c0]?).bind (fun ps => ps[k]?) := by
  induction pss generalizing c0 with
  | nil => simp [mkPool, recv]
  | cons ps rest ih =>
    show recv (mkBlock c0 base 0 ps ++ mkPool base (c0 + 1) rest) c (base + k) = _
    rw [recv_append]
    by_cases hcc : c = c0
    · subst hcc
      have hself := recv_mkBlock_self c base 0 k ps
      rw [if_pos (Nat.zero_le k)] at hself
      rw [hself]
      rw [recv_mkPool_lt base (c + 1) c _ rest (by omega)]
      simp
    · rw [recv_mkBlock_ne _ _ _ _ _ _ (by omega)]
      rw [ih (c0 + 1) (by omega)]
      have h1 : c - c0 = (c - (c0 + 1)) + 1 := by omega
      rw [h1]
      simp

/-! ### Receives against a permuted pool

MPI matches a receive by `(source, tag)` only, so as long as each
`(source, tag)` key occurs at most once in the pool, the arrival order of
the messages is irrelevant to what every receive returns. -/

theorem recv_eq_filter_head {α : Type} (pool : Pool α) (src tag : Nat) :
    recv pool src tag =
      ((pool.filter (fun m => decide (keyOf m = (src, tag)))).head?).map
        (fun m => m.2.2) := by
  induction pool with
  | nil => rfl
  | cons m rest ih =>
    by_cases h : keyOf m = (src, tag)
    · simp [recv, h, List.filter]
    · simp [recv, h, List.filter, ih]

theorem perm_of_length_le_one {α : Type} {l l' : List α}
    (h : l.Perm l') (hl : l.length ≤ 1) : l = l' := by
  rcases l with _ | ⟨a, rest⟩
  · rw [h.nil_eq]
  · rcases rest with _ | ⟨b, rest2⟩
    · exact (List.perm_singleton.mp h.symm).symm
    · simp at hl
theorem recv_perm {α : Type} {pool pool' : Pool α} (src tag : Nat)
    (h : pool.Perm pool')
    (hu : (pool.filter (fun m => decide (keyOf m = (src, tag)))).length ≤ 1) :
    recv pool' src tag = recv pool src tag := by
  rw [recv_eq_filter_head, recv_eq_filter_head]
  rw [← perm_of_length_le_one (h.filter _) hu]

theorem filter_key_mkBlock_ne {α : Type} (c base k0 src tag : Nat) (xs : List α)
    (h : src ≠ c) :
    (mkBlock c base k0 xs).filter (fun m => decide (keyOf m = (src, tag))) = [] := by
  induction xs generalizing k0 with
  | nil => rfl
  | cons x xs ih =>
    show List.filter _ ((c, base + k0, x) :: _) = []
    rw [List.filter_cons_of_neg (by simp [keyOf]; intro hc; exact absurd hc.symm h)]
    exact ih (k0 + 1)

theorem filter_key_mkBlock_low {α : Type} (c base k0 src tag : Nat) (xs : List α)
    (h : tag < base + k0) :
    (mkBlock c base k0 xs).filter (fun m => decide (keyOf m = (src, tag))) = [] := by
  induction xs generalizing k0 with
  | nil => rfl
  | cons x xs ih =>
    show List.filter _ ((c, base + k0, x) :: _) = []
    rw [List.filter_cons_of_neg (by simp [keyOf]; omega)]
    exact ih (k0 + 1) (by omega)

theorem filter_key_mkBlock_le_one {α : Type} (c base k0 src tag : Nat) (xs : List α) :
    ((mkBlock c base k0 xs).filter
      (fun m => decide (keyOf m = (src, tag)))).length ≤ 1 := by
  induction xs generalizing k0 with
  | nil => simp [mkBlock]
  | cons x xs ih =>
    show (List.filter _ ((c, base + k0, x) :: _)).length ≤ 1
    by_cases h : keyOf ((c, base + k0, x) : Nat × Nat × α) = (src, tag)
    · rw [List.filter_cons_of_pos (by simp [h])]
      have hlow : (mkBlock c base (k0 + 1) xs).filter
          (fun m => decide (keyOf m = (src, tag))) = [] := by
        apply filter_key_mkBlock_low
        simp [keyOf] at h
        omega
      simp [hlow]
    · rw [List.filter_cons_of_neg (by simp [h])]
      exact ih (k0 + 1)

theorem filter_key_mkPool_ne {α : Type} (base c0 src tag : Nat) (pss : List (List α))
    (h : src < c0) :
    (mkPool base c0 pss).filter (fun m => decide (keyOf m = (src, tag))) = [] := by
  induction pss generalizing c0 with
  | nil => rfl
  | cons ps rest ih =>
    show List.filter _ (mkBlock c0 base 0 ps ++ mkPool base (c0 + 1) rest) = []
    rw [List.filter_append, filter_key_mkBlock_ne _ _ _ _ _ _ (by omega),
      ih (c0 + 1) (by omega)]
    rfl

theorem filter_key_mkPool_le_one {α : Type} (base c0 src tag : Nat)
    (pss : List (List α)) :
    ((mkPool base c0 pss).filter
      (fun m => decide (keyOf m = (src, tag)))).length ≤ 1 := by
  induction pss generalizing c0 with
  | nil => simp [mkPool]
  | cons ps rest ih =>
    show (List.filter _ (mkBlock c0 base 0 ps ++ mkPool base (c0 + 1) rest)).length ≤ 1
    rw [List.filter_append, List.length_append]
    by_cases h : src = c0
    · subst h
      rw [filter_key_mkPool_ne _ _ _ _ _ (by omega)]
      have := filter_key_mkBlock_le_one src base 0 src tag ps
      simpa using this
    · rw [filter_key_mkBlock_ne _ _ _ _ _ _ h]
      simpa using ih (c0 + 1)

/-! ## `MPIStats.get_stacks` (pipeline.py lines 58-94)

Tags: the count of label number `k` travels with tag `tag_start*300 + k`,
the running-sum array with tag `tag_start*10 + k`; counts and arrays are
scalar (`send`) respectively buffer (`Send`) messages, modelled as two
separate pools. -/

/-- Follower branch (`self.rank != 0`) of `get_stacks`: rank `c` sends all
its per-label counts, then all its running-sum arrays, and never writes its
own state. -/
def followerGetStacks (T c : Nat) (st : StackState) :
    StackState × Pool Nat × Pool Mat :=
  (st, mkBlock c (T * 300) 0 (st.map (fun e => e.count)),
    mkBlock c (T * 10) 0 (st.map (fun e => e.sum)))

/-- The pool of count messages the leader can receive: ranks `1..` each
contribute their count list (their send loop's block). -/
def stacksCPool (T : Nat) (others : List StackState) : Pool Nat :=
  mkPool (T * 300) 1 (others.map (fun st => st.map (fun e => e.count)))

/-- The pool of running-sum-array messages the leader can receive. -/
def stacksAPool (T : Nat) (others : List StackState) : Pool Mat :=
  mkPool (T * 10) 1 (others.map (fun st => st.map (fun e => e.sum)))

/-- Leader loop `for k,label: stack_count[label] = own; for core in
range(1, numcores): stack_count[label] += recv(core, 300*T + k)`, from label
index `k0` down the leader's entry list. -/
def stackCountsPhase (T n : Nat) (cpool : Pool Nat) :
    Nat → List StackEntry → Option (List Nat)
  | _, [] => some []
  | k, e :: rest =>
      ((List.range' 1 (n - 1)).foldlM
          (fun acc c => (recv cpool c (T * 300 + k)).map (fun d => acc + d))
          e.count).bind
        (fun cnt => (stackCountsPhase T n cpool (k + 1) rest).map
          (fun cs => cnt :: cs))

/-- Leader inner loop for one core: `for k,label: data_vessel =
np.empty(little_stack[label].shape); Recv(data_vessel, core, 10*T + k);
stacks[label] += data_vessel`.  A missing message means the receive blocks
forever; a payload of the wrong shape is an MPI truncation error — both
are `none`. -/
def stackRecvCore (T c : Nat) (apool : Pool Mat) :
    Nat → List (List Nat) → List Mat → Option (List Mat)
  | _, [], [] => some []
  | k, sh :: shs, m :: ms =>
      (recv apool c (T * 10 + k)).bind (fun d =>
        if matShape d = sh then
          (stackRecvCore T c apool (k + 1) shs ms).map (fun rest => arrAdd m d :: rest)
        else none)
  | _, _, _ => none

/-- Leader branch of `get_stacks`: gather all counts, seed `stacks` with the
leader's own arrays, add every other core's arrays in rank order, then
divide each stack by its total count.  Produces, per label,
`(label, averaged stack, total count)`. -/
def getStacksLeader (T n : Nat) (leader : StackState)
    (cpool : Pool Nat) (apool : Pool Mat) : Option (List (String × Mat × Nat)) :=
  (stackCountsPhase T n cpool 0 leader).bind (fun counts =>
    ((List.range' 1 (n - 1)).foldlM
        (fun ms c => stackRecvCore T c apool 0
          (leader.map (fun e => matShape e.sum)) ms)
        (leader.map (fun e => e.sum))).map (fun arrs =>
      List.zipWith3 (fun (e : StackEntry) (a : Mat) (cnt : Nat) =>
        (e.label, arrDiv a (cnt : ℚ), cnt)) leader arrs counts))

/-- The whole `get_stacks` exchange for an active group whose per-rank
states are `states` (rank 0 first): followers flood the two pools, the
leader gathers.  Only the leader's result exists. -/
def get_stacks (T : Nat) (states : List StackState) :
    Option (List (String × Mat × Nat)) :=
  match states with
  | [] => none
  | leader :: others =>
      getStacksLeader T (others.length + 1) leader
        (stacksCPool T others) (stacksAPool T others)

/-- `little_stack_count[label]` of the `k`-th registered label (0 when the
state has fewer labels). -/
def countAt (st : StackState) (k : Nat) : Nat :=
  ((st[k]?).map (fun e => e.count)).getD 0

/-- `little_stack[label]` of the `k`-th registered label. -/
def sumAt (st : StackState) (k : Nat) : Mat :=
  ((st[k]?).map (fun e => e.sum)).getD []

theorem foldlM_recv_sum {X : Type} (l : List X) (G : X → Nat) (F : Nat → Option Nat)
    (c0 init : Nat)
    (h : ∀ i, (hi : i < l.length) → F (c0 + i) = some (G (l.get ⟨i, hi⟩))) :
    (List.range' c0 l.length).foldlM (fun acc c => (F c).map (fun d => acc + d)) init =
      some (init + (l.map G).sum) := by
  induction l generalizing c0 init with
  | nil => simp
  | cons x xs ih =>
    have h0 : F c0 = some (G x) := by
      have h1 := h 0 (by simp)
      simpa using h1
    rw [show List.range' c0 (x :: xs).length = c0 :: List.range' (c0 + 1) xs.length
      from rfl]
    rw [List.foldlM_cons, h0]
    show (List.range' (c0 + 1) xs.length).foldlM _ (init + G x) = _
    rw [ih (c0 + 1) (init + G x) (fun i hi => by
      have h2 := h (i + 1) (by simpa using Nat.succ_lt_succ hi)
      rw [show c0 + (i + 1) = c0 + 1 + i by omega] at h2
      exact h2)]
    rw [List.map_cons, List.sum_cons]
    rw [Nat.add_assoc]

theorem recv_stacksCPool (T : Nat) (others : List StackState) (i k : Nat)
    (hi : i < others.length) (hk : k < (others.get ⟨i, hi⟩).length) :
    recv (stacksCPool T others) (1 + i) (T * 300 + k) =
      some ((others.get ⟨i, hi⟩).get ⟨k, hk⟩).count := by
  unfold stacksCPool
  rw [recv_mkPool _ _ _ _ _ (by omega)]
  rw [show 1 + i - 1 = i by omega]
  rw [List.getElem?_map, List.getElem?_eq_getElem hi]
  simp only [Option.map_some', Option.some_bind]
  rw [List.getElem?_map,
    List.getElem?_eq_getElem (by simpa [List.get_eq_getElem] using hk)]
  simp [List.get_eq_getElem]

/-- The counts the leader is specified to end with: per label, own count
plus the sum of every other rank's count for that label. -/
def specStackCounts (others : List StackState) : Nat → List StackEntry → List Nat
  | _, [] => []
  | k, e :: rest =>
      (e.count + (others.map (fun st => countAt st k)).sum) ::
        specStackCounts others (k + 1) rest

theorem stackCountsPhase_spec (T : Nat) (others : List StackState)
    (ents : List StackEntry) (k0 : Nat)
    (h : ∀ st ∈ others, ∀ j, j < ents.length → k0 + j < st.length) :
    stackCountsPhase T (others.length + 1) (stacksCPool T others) k0 ents =
      some (specStackCounts others k0 ents) := by
  induction ents generalizing k0 with
  | nil => rfl
  | cons e rest ih =>
    show ((List.range' 1 (others.length + 1 - 1)).foldlM
        (fun acc c => (recv (stacksCPool T others) c (T * 300 + k0)).map
          (fun d => acc + d)) e.count).bind
      (fun cnt => (stackCountsPhase T (others.length + 1) (stacksCPool T others)
          (k0 + 1) rest).map (fun cs => cnt :: cs)) = _
    rw [show others.length + 1 - 1 = others.length by omega]
    have hfold := foldlM_recv_sum others (fun st => countAt st k0)
      (fun c => recv (stacksCPool T others) c (T * 300 + k0)) 1 e.count
      (fun i hi => by
        have hk : k0 < (others.get ⟨i, hi⟩).length := by
          have := h (others.get ⟨i, hi⟩) (List.get_mem others i hi) 0 (by simp)
          omega
        show recv (stacksCPool T others) (1 + i) (T * 300 + k0) =
          some (countAt (others.get ⟨i, hi⟩) k0)
        rw [recv_stacksCPool T others i k0 hi hk]
        congr 1
        unfold countAt
        rw [List.getElem?_eq_getElem (by simpa [List.get_eq_getElem] using hk)]
        simp [List.get_eq_getElem])
    rw [hfold]
    rw [ih (k0 + 1) (fun st hst j hj => by
      have := h st hst (j + 1) (by simpa using Nat.succ_lt_succ hj)
      omega)]
    rfl

theorem recv_stacksAPool (T : Nat) (others : List StackState) (i k : Nat)
    (hi : i < others.length) (hk : k < (others.get ⟨i, hi⟩).length) :
    recv (stacksAPool T others) (1 + i) (T * 10 + k) =
      some ((others.get ⟨i, hi⟩).get ⟨k, hk⟩).sum := by
  unfold stacksAPool
  rw [recv_mkPool _ _ _ _ _ (by omega)]
  rw [show 1 + i - 1 = i by omega]
  rw [List.getElem?_map, List.getElem?_eq_getElem hi]
  simp only [Option.map_some', Option.some_bind]
  rw [List.getElem?_map,
    List.getElem?_eq_getElem (by simpa [List.get_eq_getElem] using hk)]
  simp [List.get_eq_getElem]

/-- The slice `sumAt st k0, sumAt st (k0+1), ...` of length `len`. -/
def sumsFrom (st : StackState) : Nat → Nat → List Mat
  | _, 0 => []
  | k, len + 1 => sumAt st k :: sumsFrom st (k + 1) len

theorem sumsFrom_length (st : StackState) (k0 len : Nat) :
    (sumsFrom st k0 len).length = len := by
  induction len generalizing k0 with
  | zero => rfl
  | succ len ih => simp [sumsFrom, ih]

theorem sumsFrom_getElem? (st : StackState) (k0 len j : Nat) (hj : j < len) :
    (sumsFrom st k0 len)[j]? = some (sumAt st (k0 + j)) := by
  induction len generalizing k0 j with
  | zero => omega
  | succ len ih =>
    cases j with
    | zero => simp [sumsFrom]
    | succ j =>
      rw [show sumsFrom st k0 (len + 1) = sumAt st k0 :: sumsFrom st (k0 + 1) len
        from rfl]
      rw [List.getElem?_cons_succ]
      rw [ih (k0 + 1) j (by omega)]
      rw [show k0 + 1 + j = k0 + (j + 1) by omega]

theorem stackRecvCore_spec (T : Nat) (others : List StackState) (i : Nat)
    (hi : i < others.length) (c : Nat) (hc : c = 1 + i) (shs : List (List Nat)) :
    ∀ (ms : List Mat) (k0 : Nat), shs.length = ms.length →
    (∀ j, j < shs.length → k0 + j < (others.get ⟨i, hi⟩).length ∧
      matShape (sumAt (others.get ⟨i, hi⟩) (k0 + j)) = shs.getD j []) →
    stackRecvCore T c (stacksAPool T others) k0 shs ms =
      some (List.zipWith arrAdd ms (sumsFrom (others.get ⟨i, hi⟩) k0 shs.length)) := by
  subst hc
  induction shs with
  | nil =>
    intro ms k0 hlen hsh
    have : ms = [] := by
      cases ms with
      | nil => rfl
      | cons m ms => simp at hlen
    subst this
    rfl
  | cons sh shs ih =>
    intro ms k0 hlen hsh
    cases ms with
    | nil => simp at hlen
    | cons m ms =>
      obtain ⟨hk0, hshape0⟩ := hsh 0 (by simp)
      rw [show k0 + 0 = k0 by omega] at hk0 hshape0
      show (recv (stacksAPool T others) (1 + i) (T * 10 + k0)).bind _ = _
      rw [recv_stacksAPool T others i k0 hi hk0]
      have hsum : ((others.get ⟨i, hi⟩).get ⟨k0, hk0⟩).sum =
          sumAt (others.get ⟨i, hi⟩) k0 := by
        unfold sumAt
        rw [List.getElem?_eq_getElem (by simpa [List.get_eq_getElem] using hk0)]
        simp [List.get_eq_getElem]
      rw [Option.some_bind, hsum]
      rw [if_pos (by rw [hshape0]; rfl)]
      rw [ih ms (k0 + 1) (by simpa using hlen) (fun j hj => by
        obtain ⟨h1, h2⟩ := hsh (j + 1) (by simpa using Nat.succ_lt_succ hj)
        rw [show k0 + (j + 1) = k0 + 1 + j by omega] at h1 h2
        exact ⟨h1, h2⟩)]
      rfl

theorem stacksArrsFold (T : Nat) (others : List StackState) (S : List (List Nat))
    (hS : ∀ st ∈ others, st.map (fun e => matShape e.sum) = S) :
    ∀ (os : List StackState) (c0 : Nat) (ms : List Mat),
    c0 - 1 + os.length = others.length → others.drop (c0 - 1) = os → 1 ≤ c0 →
    ms.length = S.length →
    (List.range' c0 (others.length + 1 - c0)).foldlM
        (fun acc c => stackRecvCore T c (stacksAPool T others) 0 S acc) ms =
      some (os.foldl
        (fun acc st => List.zipWith arrAdd acc (sumsFrom st 0 S.length)) ms) := by
  intro os
  induction os with
  | nil =>
    intro c0 ms hco hdrop hc1 hms
    simp only [List.length_nil, Nat.add_zero] at hco
    rw [show others.length + 1 - c0 = 0 by omega]
    rfl
  | cons st os ih =>
    intro c0 ms hco hdrop hc1 hms
    have hcb : c0 - 1 < others.length := by simp at hco; omega
    have hgetst : others.get ⟨c0 - 1, hcb⟩ = st := by
      have h0 : (others.drop (c0 - 1))[0]? = some st := by rw [hdrop]; simp
      rw [List.getElem?_drop, Nat.add_zero, List.getElem?_eq_getElem hcb] at h0
      have := Option.some.inj h0
      simpa [List.get_eq_getElem] using this
    have hstmem : st ∈ others := by
      rw [← hgetst]
      exact List.get_mem others (c0 - 1) hcb
    have hstS : st.map (fun e => matShape e.sum) = S := hS st hstmem
    have hstlen : st.length = S.length := by
      have := congrArg List.length hstS
      simpa using this
    rw [show others.length + 1 - c0 = (others.length - c0) + 1 by omega]
    rw [show List.range' c0 ((others.length - c0) + 1) =
      c0 :: List.range' (c0 + 1) (others.length - c0) from rfl]
    rw [List.foldlM_cons]
    have hstep := stackRecvCore_spec T others (c0 - 1) hcb c0 (by omega) S ms 0
      hms.symm
      (fun j hj => by
        rw [hgetst]
        refine ⟨by omega, ?_⟩
        have hjS : (st.map (fun e => matShape e.sum))[j]? = S[j]? := by rw [hstS]
        rw [List.getElem?_map] at hjS
        rw [List.getElem?_eq_getElem (show j < st.length by omega)] at hjS
        rw [List.getElem?_eq_getElem (show j < S.length by omega)] at hjS
        have hv : matShape st[j].sum = S[j] := by
          have h5 := Option.some.inj hjS
          simpa using h5
        rw [Nat.zero_add]
        unfold sumAt
        rw [List.getElem?_eq_getElem (show j < st.length by omega)]
        simp only [Option.map_some', Option.getD_some]
        rw [List.getD_eq_getElem?_getD,
          List.getElem?_eq_getElem (show j < S.length by omega)]
        simpa using hv)
    rw [hgetst] at hstep
    rw [hstep]
    simp only [Option.bind_eq_bind, Option.some_bind]
    rw [show others.length - c0 = others.length + 1 - (c0 + 1) by omega]
    rw [ih (c0 + 1) (List.zipWith arrAdd ms (sumsFrom st 0 S.length))
      (by simp at hco ⊢; omega)
      (by rw [show c0 + 1 - 1 = (c0 - 1) + 1 by omega, ← List.tail_drop, hdrop]; rfl)
      (by omega)
      (by rw [List.length_zipWith, sumsFrom_length, hms]; simp)]
    rfl

theorem foldl_zipWith_getElem (os : List StackState) (len : Nat) :
    ∀ (ms : List Mat), ms.length = len →
    ∀ k,
    (os.foldl (fun acc st => List.zipWith arrAdd acc (sumsFrom st 0 len)) ms)[k]? =
      (ms[k]?).map (fun m0 => os.foldl (fun a st => arrAdd a (sumAt st k)) m0) := by
  induction os with
  | nil =>
    intro ms hms k
    cases hk : ms[k]? with
    | none => rw [List.foldl_nil, hk]; rfl
    | some m => rw [List.foldl_nil, hk]; rfl
  | cons st os ih =>
    intro ms hms k
    rw [List.foldl_cons]
    rw [ih (List.zipWith arrAdd ms (sumsFrom st 0 len))
      (by rw [List.length_zipWith, sumsFrom_length, hms]; simp) k]
    rw [List.getElem?_zipWith]
    by_cases hk : k < len
    · rw [sumsFrom_getElem? st 0 len k hk, show 0 + k = k by omega]
      rcases hmk : ms[k]? with _ | m0
      · rw [List.getElem?_eq_none_iff] at hmk
        omega
      · simp
    · have h1 : ms[k]? = none := by
        rw [List.getElem?_eq_none_iff]
        omega
      have h2 : (sumsFrom st 0 len)[k]? = none := by
        rw [List.getElem?_eq_none_iff, sumsFrom_length]
        omega
      rw [h1, h2]
      rfl

theorem zipWith3_getElem? {A B C D : Type} (f : A → B → C → D) :
    ∀ (as : List A) (bs : List B) (cs : List C) (k : Nat),
    (List.zipWith3 f as bs cs)[k]? =
      (as[k]?).bind (fun a => (bs[k]?).bind (fun b => (cs[k]?).map
        (fun c => f a b c))) := by
  intro as
  induction as with
  | nil => intro bs cs k; simp [List.zipWith3]
  | cons a as ih =>
    intro bs cs k
    cases bs with
    | nil =>
      cases hk : (a :: as)[k]? <;> simp [List.zipWith3, hk]
    | cons b bs =>
      cases cs with
      | nil =>
        cases hk : (a :: as)[k]? <;> cases hk2 : (b :: bs)[k]? <;>
          simp [List.zipWith3, hk, hk2]
      | cons c cs =>
        cases k with
        | zero => simp [List.zipWith3]
        | succ k =>
          rw [show List.zipWith3 f (a :: as) (b :: bs) (c :: cs) =
            f a b c :: List.zipWith3 f as bs cs from rfl]
          rw [List.getElem?_cons_succ, List.getElem?_cons_succ,
            List.getElem?_cons_succ, List.getElem?_cons_succ]
          exact ih bs cs k

theorem specStackCounts_getElem? (others : List StackState) :
    ∀ (ents : List StackEntry) (k0 j : Nat),
    (specStackCounts others k0 ents)[j]? =
      (ents[j]?).map (fun e =>
        e.count + (others.map (fun st => countAt st (k0 + j))).sum) := by
  intro ents
  induction ents with
  | nil => intro k0 j; simp [specStackCounts]
  | cons e rest ih =>
    intro k0 j
    cases j with
    | zero => simp [specStackCounts]
    | succ j =>
      rw [show specStackCounts others k0 (e :: rest) =
        (e.count + (others.map (fun st => countAt st k0)).sum) ::
          specStackCounts others (k0 + 1) rest from rfl]
      rw [List.getElem?_cons_succ, List.getElem?_cons_succ]
      rw [ih (k0 + 1) j]
      rw [show k0 + 1 + j = k0 + (j + 1) by omega]

/-- The leader's specified `get_stacks` output: per label index `k`, the
label, the elementwise sum over all ranks of that label's running-sum array
divided by the total count, and the total count. -/
def stackSpec (states : List StackState) (L : List String) (k : Nat) :
    String × Mat × Nat :=
  (L.getD k "",
    arrDiv (matsSum (states.map (fun st => sumAt st k)))
      (((states.map (fun st => countAt st k)).sum : Nat) : ℚ),
    (states.map (fun st => countAt st k)).sum)

theorem get_stacks_spec (T : Nat) (leader : StackState) (others : List StackState)
    (L : List String) (S : List (List Nat))
    (hL : ∀ st ∈ leader :: others, st.map (fun e => e.label) = L)
    (hS : ∀ st ∈ leader :: others, st.map (fun e => matShape e.sum) = S) :
    get_stacks T (leader :: others) =
      some ((List.range L.length).map (stackSpec (leader :: others) L)) := by
  have hLleader : leader.map (fun e => e.label) = L :=
    hL leader (List.mem_cons_self leader others)
  have hSleader : leader.map (fun e => matShape e.sum) = S :=
    hS leader (List.mem_cons_self leader others)
  have hLlen : leader.length = L.length := by
    have := congrArg List.length hLleader
    simpa using this
  have hSlen : leader.length = S.length := by
    have := congrArg List.length hSleader
    simpa using this
  have hothersLen : ∀ st ∈ others, st.length = L.length := by
    intro st hst
    have := congrArg List.length (hL st (List.mem_cons_of_mem leader hst))
    simpa using this
  show getStacksLeader T (others.length + 1) leader (stacksCPool T others)
    (stacksAPool T others) = _
  unfold getStacksLeader
  rw [show others.length + 1 - 1 = others.length from rfl]
  rw [stackCountsPhase_spec T others leader 0 (fun st hst j hj => by
    rw [hothersLen st hst]
    omega)]
  rw [Option.some_bind]
  rw [hSleader]
  rw [show List.range' 1 others.length =
    List.range' 1 (others.length + 1 - 1) from rfl]
  rw [stacksArrsFold T others S
    (fun st hst => hS st (List.mem_cons_of_mem leader hst))
    others 1 (leader.map (fun e => e.sum)) (by simp) (by simp) (le_refl 1)
    (by rw [List.length_map]; exact hSlen)]
  rw [Option.map_some']
  apply congrArg some
  apply List.ext_getElem?
  intro k
  rw [zipWith3_getElem?]
  rw [foldl_zipWith_getElem others S.length (leader.map (fun e => e.sum))
    (by rw [List.length_map]; exact hSlen) k]
  rw [specStackCounts_getElem? others leader 0 k]
  rw [List.getElem?_map]
  by_cases hk : k < L.length
  · rw [List.getElem?_map, List.getElem?_range hk]
    rw [List.getElem?_eq_getElem (show k < leader.length by omega)]
    simp only [Option.map_some', Option.some_bind, Option.bind_some]
    have hlab : leader[k].label = L.getD k "" := by
      have h1 : (leader.map (fun e => e.label))[k]? = L[k]? := by rw [hLleader]
      rw [List.getElem?_map,
        List.getElem?_eq_getElem (show k < leader.length by omega),
        List.getElem?_eq_getElem (show k < L.length by omega)] at h1
      have h2 := Option.some.inj h1
      rw [List.getD_eq_getElem?_getD, List.getElem?_eq_getElem hk]
      simpa using h2
    have hcnt : leader[k].count = countAt leader k := by
      unfold countAt
      rw [List.getElem?_eq_getElem (show k < leader.length by omega)]
      rfl
    have hsum0 : leader[k].sum = sumAt leader k := by
      unfold sumAt
      rw [List.getElem?_eq_getElem (show k < leader.length by omega)]
      rfl
    have hfold : List.foldl (fun a st => arrAdd a (sumAt st k)) leader[k].sum others =
        matsSum ((leader :: others).map (fun st => sumAt st k)) := by
      rw [show (leader :: others).map (fun st => sumAt st k) =
        sumAt leader k :: others.map (fun st => sumAt st k) from rfl]
      rw [show matsSum (sumAt leader k :: others.map (fun st => sumAt st k)) =
        (others.map (fun st => sumAt st k)).foldl arrAdd (sumAt leader k) from rfl]
      rw [List.foldl_map, hsum0]
    unfold stackSpec
    rw [show (leader :: others).map (fun st => countAt st k) =
      countAt leader k :: others.map (fun st => countAt st k) from rfl]
    rw [List.sum_cons]
    rw [Nat.zero_add, hfold, hlab, hcnt]
  · have h1 : leader[k]? = none := by
      rw [List.getElem?_eq_none_iff]
      omega
    have h2 : ((List.range L.length).map (stackSpec (leader :: others) L))[k]? =
        none := by
      rw [List.getElem?_eq_none_iff, List.length_map, List.length_range]
      omega
    rw [h1, h2]
    rfl

/-- C3: when every active process registered the same labels in the same
order (and, per label, arrays of one common shape), the leader's
`get_stacks` result holds, for every label, the elementwise sum of all
processes' running-sum arrays (its own included) divided by the total
sample count (its own included) — the elementwise average of everything
contributed. -/
theorem get_stacks_leader_average (T : Nat) (leader : StackState)
    (others : List StackState) (L : List String) (S : List (List Nat))
    (hL : ∀ st ∈ leader :: others, st.map (fun e => e.label) = L)
    (hS : ∀ st ∈ leader :: others, st.map (fun e => matShape e.sum) = S) :
    get_stacks T (leader :: others) =
      some ((List.range L.length).map (fun k =>
        (L.getD k "",
          arrDiv (matsSum ((leader :: others).map (fun st => sumAt st k)))
            ((((leader :: others).map (fun st => countAt st k)).sum : Nat) : ℚ),
          ((leader :: others).map (fun st => countAt st k)).sum))) :=
  get_stacks_spec T leader others L S hL hS

/-- Witness for C3: three processes, one label `s`, each contributing a
single 2×2 all-ones array; the leader's average is the 2×2 all-ones array
with total count 3. -/
theorem get_stacks_leader_average_witness :
    get_stacks 333
        [[⟨"s", [[1, 1], [1, 1]], 1⟩], [⟨"s", [[1, 1], [1, 1]], 1⟩],
          [⟨"s", [[1, 1], [1, 1]], 1⟩]] =
      some [("s", [[1, 1], [1, 1]], 3)] := by
  have h := get_stacks_leader_average 333 [⟨"s", [[1, 1], [1, 1]], 1⟩]
    [[⟨"s", [[1, 1], [1, 1]], 1⟩], [⟨"s", [[1, 1], [1, 1]], 1⟩]]
    ["s"] [[2, 2]] (by decide) (by decide)
  rw [h]
  norm_num [List.range, List.range.loop, matsSum, arrAdd, vecAdd, arrDiv,
    sumAt, countAt]

theorem vecAdd_right_comm (z x y : Vec) :
    vecAdd (vecAdd z x) y = vecAdd (vecAdd z y) x := by
  induction z generalizing x y with
  | nil => rfl
  | cons a z ih =>
    cases x with
    | nil =>
      cases y <;> rfl
    | cons b x =>
      cases y with
      | nil => rfl
      | cons c y =>
        show (a + b + c) :: vecAdd (vecAdd z x) y = (a + c + b) :: vecAdd (vecAdd z y) x
        rw [ih x y, add_right_comm]

theorem arrAdd_right_comm (z x y : Mat) :
    arrAdd (arrAdd z x) y = arrAdd (arrAdd z y) x := by
  induction z generalizing x y with
  | nil => rfl
  | cons a z ih =>
    cases x with
    | nil =>
      cases y <;> rfl
    | cons b x =>
      cases y with
      | nil => rfl
      | cons c y =>
        show vecAdd (vecAdd a b) c :: arrAdd (arrAdd z x) y =
          vecAdd (vecAdd a c) b :: arrAdd (arrAdd z y) x
        rw [ih x y, vecAdd_right_comm]

theorem matsSum_eq_foldl_zero (l : List Mat) (s : List Nat) (hne : l ≠ [])
    (hs : ∀ m ∈ l, matShape m = s) :
    matsSum l = l.foldl arrAdd (zeroMat s) := by
  cases l with
  | nil => exact absurd rfl hne
  | cons a r =>
    show r.foldl arrAdd a = _
    rw [List.foldl_cons, zeroMat_arrAdd a s (hs a (List.mem_cons_self a r))]

theorem matsSum_perm (l l' : List Mat) (hp : l.Perm l') (s : List Nat)
    (hs : ∀ m ∈ l, matShape m = s) : matsSum l = matsSum l' := by
  cases l with
  | nil =>
    rw [hp.nil_eq]
  | cons a r =>
    have hne' : l' ≠ [] := by
      intro h
      subst h
      have := hp.length_eq
      simp at this
    rw [matsSum_eq_foldl_zero (a :: r) s (by simp) hs,
      matsSum_eq_foldl_zero l' s hne' (fun m hm => hs m (hp.mem_iff.mpr hm))]
    exact hp.foldl_eq' (fun x _ y _ z => arrAdd_right_comm z x y) (zeroMat s)

/-- C8: the leader's averaged stacks do not depend on which process
contributed which `(count, running-sum)` pair: permuting the per-process
states (all registered with the same labels and shapes) leaves the
`get_stacks` result unchanged. -/
theorem get_stacks_perm_invariant (T : Nat) (states states' : List StackState)
    (L : List String) (S : List (List Nat)) (hp : states.Perm states')
    (hL : ∀ st ∈ states, st.map (fun e => e.label) = L)
    (hS : ∀ st ∈ states, st.map (fun e => matShape e.sum) = S) :
    get_stacks T states = get_stacks T states' := by
  have hL' : ∀ st ∈ states', st.map (fun e => e.label) = L :=
    fun st hst => hL st (hp.mem_iff.mpr hst)
  have hS' : ∀ st ∈ states', st.map (fun e => matShape e.sum) = S :=
    fun st hst => hS st (hp.mem_iff.mpr hst)
  cases states with
  | nil =>
    rw [hp.nil_eq]
  | cons st0 rest =>
    cases states' with
    | nil =>
      have := hp.length_eq
      simp at this
    | cons st0' rest' =>
      rw [get_stacks_spec T st0 rest L S hL hS,
        get_stacks_spec T st0' rest' L S hL' hS']
      apply congrArg some
      apply List.map_congr_left
      intro k _
      have hshapes : ∀ m ∈ (st0 :: rest).map (fun st => sumAt st k),
          matShape m = S.getD k [] := by
        intro m hm
        rw [List.mem_map] at hm
        obtain ⟨st, hst, rfl⟩ := hm
        have hstS := hS st hst
        have hstlen : st.length = S.length := by
          have := congrArg List.length hstS
          simpa using this
        by_cases hk : k < st.length
        · have h1 : (st.map (fun e => matShape e.sum))[k]? = S[k]? := by rw [hstS]
          rw [List.getElem?_map, List.getElem?_eq_getElem hk,
            List.getElem?_eq_getElem (show k < S.length by omega)] at h1
          have h2 := Option.some.inj h1
          unfold sumAt
          rw [List.getElem?_eq_getElem hk]
          simp only [Option.map_some', Option.getD_some]
          rw [List.getD_eq_getElem?_getD,
            List.getElem?_eq_getElem (show k < S.length by omega)]
          simpa using h2
        · unfold sumAt
          rw [List.getElem?_eq_none_iff.mpr (by omega)]
          rw [List.getD_eq_getElem?_getD,
            List.getElem?_eq_none_iff.mpr (by omega : S.length ≤ k)]
          rfl
      unfold stackSpec
      rw [matsSum_perm ((st0 :: rest).map (fun st => sumAt st k))
        ((st0' :: rest').map (fun st => sumAt st k))
        (hp.map (fun st => sumAt st k)) (S.getD k []) hshapes]
      rw [(hp.map (fun st => countAt st k)).sum_eq]

/-- Witness for C8: swapping which of two processes contributed which pair
leaves the result unchanged. -/
theorem get_stacks_perm_invariant_witness :
    get_stacks 333 [[⟨"s", [[1, 2]], 1⟩], [⟨"s", [[5, 6]], 3⟩]] =
      get_stacks 333 [[⟨"s", [[5, 6]], 3⟩], [⟨"s", [[1, 2]], 1⟩]] :=
  get_stacks_perm_invariant 333 _ _ ["s"] [[2]]
    (List.Perm.swap _ _ _) (by decide) (by decide)

/-! ## `MPIStats.get_stats` (pipeline.py lines 96-133)

Tags: the sample count of label number `k` travels with tag
`tag_start*200 + k`, the stacked sample matrix with tag `tag_start + k`. -/

/-- Follower branch (`self.rank != 0`) of `get_stats`: rank `c` sends, per
label, the number of samples it holds and then the stacked sample matrix,
and never writes its own state. -/
def followerGetStats (T c : Nat) (st : StatsState) :
    StatsState × Pool Nat × Pool Mat :=
  (st, mkBlock c (T * 200) 0 (st.map (fun e => e.2.length)),
    mkBlock c T 0 (st.map (fun e => e.2)))

/-- C9: during `get_stacks` and `get_stats` a non-leader only sends: its
per-label sample lists, running-sum arrays and counts are exactly what they
were before the call (the `rank != 0` branches of both methods contain no
assignment), and no merge result is produced anywhere but on the leader. -/
theorem follower_state_unchanged :
    ∀ (T c : Nat) (st : StackState) (vt : StatsState),
      (followerGetStacks T c st).1 = st ∧ (followerGetStats T c vt).1 = vt :=
  fun _ _ _ _ => ⟨rfl, rfl⟩

/-- The pool of sample-count messages for `get_stats`. -/
def statsCPool (T : Nat) (others : List StatsState) : Pool Nat :=
  mkPool (T * 200) 1 (others.map (fun st => st.map (fun e => e.2.length)))

/-- The pool of sample-matrix messages for `get_stats`. -/
def statsMPool (T : Nat) (others : List StatsState) : Pool Mat :=
  mkPool T 1 (others.map (fun st => st.map (fun e => e.2)))

/-- Leader loop `for k,label: numobj[label] = [own rows]; for core:
numobj[label].append(recv(core, 200*T + k))`. -/
def statsNumobj (T n : Nat) (cpool : Pool Nat) :
    Nat → StatsState → Option (List (List Nat))
  | _, [] => some []
  | k, e :: rest =>
      ((List.range' 1 (n - 1)).mapM (fun c => recv cpool c (T * 200 + k))).bind
        (fun ds => (statsNumobj T n cpool (k + 1) rest).map
          (fun rest2 => (e.2.length :: ds) :: rest2))

/-- Leader inner loop for one core: `for k,label: expected_shape =
(numobj[label][core], vectors[label].shape[1]); Recv(data_vessel, core,
T + k); vectors[label] = np.append(vectors[label], data_vessel, axis=0)`.
A payload that does not fill the `(rows, cols)` vessel exactly is an MPI
size error (`none`); `cols` is column count of the leader's current
(already partially merged) matrix, taken from its first row. -/
def statsRecvCore (T c : Nat) (mpool : Pool Mat) :
    Nat → List (List Nat) → List Mat → Option (List Mat)
  | _, [], [] => some []
  | k, no :: nos, m :: ms =>
      (recv mpool c (T + k)).bind (fun d =>
        if d.length = no.getD c 0 ∧
            (∀ row ∈ d, row.length = (m.headD []).length) then
          (statsRecvCore T c mpool (k + 1) nos ms).map (fun rest => (m ++ d) :: rest)
        else none)
  | _, _, _ => none

/-- Leader branch of `get_stats`: gather all sample counts, convert the own
sample lists to matrices, append every other core's matrix in rank order.
Produces, per label, `(label, merged sample matrix)`; the summary
statistics the source then computes with `stats.getStats` are external to
this core. -/
def getStatsLeader (T n : Nat) (leader : StatsState)
    (cpool : Pool Nat) (mpool : Pool Mat) : Option (List (String × Mat)) :=
  (statsNumobj T n cpool 0 leader).bind (fun numobj =>
    ((List.range' 1 (n - 1)).foldlM
        (fun ms c => statsRecvCore T c mpool 0 numobj ms)
        (leader.map (fun e => e.2))).map (fun mats =>
      List.zipWith (fun (e : String × List Vec) (m : Mat) => (e.1, m)) leader mats))

/-- The whole `get_stats` exchange (rank 0 first in `states`). -/
def get_stats (T : Nat) (states : List StatsState) :
    Option (List (String × Mat)) :=
  match states with
  | [] => none
  | leader :: others =>
      getStatsLeader T (others.length + 1) leader
        (statsCPool T others) (statsMPool T others)

/-- The sample matrix a process holds for its `k`-th registered label. -/
def matAt (st : StatsState) (k : Nat) : Mat :=
  ((st[k]?).map (fun e => e.2)).getD []

/-- The sample-row count a process holds for its `k`-th registered label. -/
def rowsAt (st : StatsState) (k : Nat) : Nat :=
  ((st[k]?).map (fun e => e.2.length)).getD 0

theorem recv_statsCPool (T : Nat) (others : List StatsState) (i k : Nat)
    (hi : i < others.length) (hk : k < (others.get ⟨i, hi⟩).length) :
    recv (statsCPool T others) (1 + i) (T * 200 + k) =
      some ((others.get ⟨i, hi⟩).get ⟨k, hk⟩).2.length := by
  unfold statsCPool
  rw [recv_mkPool _ _ _ _ _ (by omega)]
  rw [show 1 + i - 1 = i by omega]
  rw [List.getElem?_map, List.getElem?_eq_getElem hi]
  simp only [Option.map_some', Option.some_bind]
  rw [List.getElem?_map,
    List.getElem?_eq_getElem (by simpa [List.get_eq_getElem] using hk)]
  simp [List.get_eq_getElem]

theorem recv_statsMPool (T : Nat) (others : List StatsState) (i k : Nat)
    (hi : i < others.length) (hk : k < (others.get ⟨i, hi⟩).length) :
    recv (statsMPool T others) (1 + i) (T + k) =
      some ((others.get ⟨i, hi⟩).get ⟨k, hk⟩).2 := by
  unfold statsMPool
  rw [recv_mkPool _ _ _ _ _ (by omega)]
  rw [show 1 + i - 1 = i by omega]
  rw [List.getElem?_map, List.getElem?_eq_getElem hi]
  simp only [Option.map_some', Option.some_bind]
  rw [List.getElem?_map,
    List.getElem?_eq_getElem (by simpa [List.get_eq_getElem] using hk)]
  simp [List.get_eq_getElem]

theorem mapM_recv {X : Type} (l : List X) (G : X → Nat) (F : Nat → Option Nat)
    (c0 : Nat) (h : ∀ i, (hi : i < l.length) → F (c0 + i) = some (G (l.get ⟨i, hi⟩))) :
    (List.range' c0 l.length).mapM F = some (l.map G) := by
  induction l generalizing c0 with
  | nil => rfl
  | cons x xs ih =>
    have h0 : F c0 = some (G x) := by
      have h1 := h 0 (by simp)
      simpa using h1
    rw [show List.range' c0 (x :: xs).length = c0 :: List.range' (c0 + 1) xs.length
      from rfl]
    rw [List.mapM_cons, h0]
    rw [ih (c0 + 1) (fun i hi => by
      have h2 := h (i + 1) (by simpa using Nat.succ_lt_succ hi)
      rw [show c0 + (i + 1) = c0 + 1 + i by omega] at h2
      exact h2)]
    rfl

/-- The `numobj` table the leader is specified to build: per label, the
leader's own row count followed by every other rank's row count in rank
order. -/
def specNumobj (others : List StatsState) : Nat → StatsState → List (List Nat)
  | _, [] => []
  | k, e :: rest =>
      (e.2.length :: others.map (fun st => rowsAt st k)) ::
        specNumobj others (k + 1) rest

theorem specNumobj_length (others : List StatsState) (ents : StatsState) (k0 : Nat) :
    (specNumobj others k0 ents).length = ents.length := by
  induction ents generalizing k0 with
  | nil => rfl
  | cons e rest ih => simp [specNumobj, ih]

theorem specNumobj_getElem? (others : List StatsState) :
    ∀ (ents : StatsState) (k0 j : Nat),
    (specNumobj others k0 ents)[j]? =
      (ents[j]?).map (fun e =>
        e.2.length :: others.map (fun st => rowsAt st (k0 + j))) := by
  intro ents
  induction ents with
  | nil => intro k0 j; simp [specNumobj]
  | cons e rest ih =>
    intro k0 j
    cases j with
    | zero => simp [specNumobj]
    | succ j =>
      rw [show specNumobj others k0 (e :: rest) =
        (e.2.length :: others.map (fun st => rowsAt st k0)) ::
          specNumobj others (k0 + 1) rest from rfl]
      rw [List.getElem?_cons_succ, List.getElem?_cons_succ, ih (k0 + 1) j]
      rw [show k0 + 1 + j = k0 + (j + 1) by omega]

theorem statsNumobj_spec (T : Nat) (others : List StatsState) (cpool : Pool Nat)
    (hrecv : ∀ src tag, recv cpool src tag = recv (statsCPool T others) src tag) :
    ∀ (ents : StatsState) (k0 : Nat),
    (∀ st ∈ others, ∀ j, j < ents.length → k0 + j < st.length) →
    statsNumobj T (others.length + 1) cpool k0 ents =
      some (specNumobj others k0 ents) := by
  intro ents
  induction ents with
  | nil => intro k0 h; rfl
  | cons e rest ih =>
    intro k0 h
    show ((List.range' 1 (others.length + 1 - 1)).mapM
        (fun c => recv cpool c (T * 200 + k0))).bind
      (fun ds => (statsNumobj T (others.length + 1) cpool (k0 + 1) rest).map
        (fun rest2 => (e.2.length :: ds) :: rest2)) = _
    rw [show others.length + 1 - 1 = others.length from rfl]
    rw [mapM_recv others (fun st => rowsAt st k0)
      (fun c => recv cpool c (T * 200 + k0)) 1 (fun i hi => by
        show recv cpool (1 + i) (T * 200 + k0) =
          some (rowsAt (others.get ⟨i, hi⟩) k0)
        rw [hrecv]
        have hk : k0 < (others.get ⟨i, hi⟩).length := by
          have := h (others.get ⟨i, hi⟩) (List.get_mem others i hi) 0 (by simp)
          omega
        rw [recv_statsCPool T others i k0 hi hk]
        congr 1
        unfold rowsAt
        rw [List.getElem?_eq_getElem (by simpa [List.get_eq_getElem] using hk)]
        simp [List.get_eq_getElem])]
    rw [Option.some_bind]
    rw [ih (k0 + 1) (fun st hst j hj => by
      have := h st hst (j + 1) (by simpa using Nat.succ_lt_succ hj)
      omega)]
    rfl

/-- The slice `matAt st k0, matAt st (k0+1), ...` of length `len`. -/
def matsFrom (st : StatsState) : Nat → Nat → List Mat
  | _, 0 => []
  | k, len + 1 => matAt st k :: matsFrom st (k + 1) len

theorem matsFrom_length (st : StatsState) (k0 len : Nat) :
    (matsFrom st k0 len).length = len := by
  induction len generalizing k0 with
  | zero => rfl
  | succ len ih => simp [matsFrom, ih]

theorem matsFrom_getElem? (st : StatsState) (k0 len j : Nat) (hj : j < len) :
    (matsFrom st k0 len)[j]? = some (matAt st (k0 + j)) := by
  induction len generalizing k0 j with
  | zero => omega
  | succ len ih =>
    cases j with
    | zero => simp [matsFrom]
    | succ j =>
      rw [show matsFrom st k0 (len + 1) = matAt st k0 :: matsFrom st (k0 + 1) len
        from rfl]
      rw [List.getElem?_cons_succ, ih (k0 + 1) j (by omega)]
      rw [show k0 + 1 + j = k0 + (j + 1) by omega]

theorem matAt_length (st : StatsState) (k : Nat) :
    (matAt st k).length = rowsAt st k := by
  unfold matAt rowsAt
  cases h : st[k]? <;> simp

theorem headD_append_left {X : Type} (a b : List X) (d : X) (h : a ≠ []) :
    (a ++ b).headD d = a.headD d := by
  cases a with
  | nil => exact absurd rfl h
  | cons x xs => rfl

theorem headD_mem {X : Type} (l : List X) (d : X) (h : l ≠ []) : l.headD d ∈ l := by
  cases l with
  | nil => exact absurd rfl h
  | cons x xs => exact List.mem_cons_self x xs

theorem statsRecvCore_spec (T : Nat) (others : List StatsState) (i : Nat)
    (hi : i < others.length) (c : Nat) (hc : c = 1 + i) (mpool : Pool Mat)
    (hrecv : ∀ src tag, recv mpool src tag = recv (statsMPool T others) src tag) :
    ∀ (nos : List (List Nat)) (ms : List Mat) (k0 : Nat),
    nos.length = ms.length →
    (∀ j, j < nos.length →
      k0 + j < (others.get ⟨i, hi⟩).length ∧
      (nos.getD j []).getD c 0 = rowsAt (others.get ⟨i, hi⟩) (k0 + j) ∧
      (∀ row ∈ matAt (others.get ⟨i, hi⟩) (k0 + j),
        row.length = ((ms.getD j []).headD []).length)) →
    statsRecvCore T c mpool k0 nos ms =
      some (List.zipWith (fun m d => m ++ d) ms
        (matsFrom (others.get ⟨i, hi⟩) k0 nos.length)) := by
  subst hc
  intro nos
  induction nos with
  | nil =>
    intro ms k0 hlen hcond
    cases ms with
    | nil => rfl
    | cons m ms => simp at hlen
  | cons no nos ih =>
    intro ms k0 hlen hcond
    cases ms with
    | nil => simp at hlen
    | cons m ms =>
      obtain ⟨hk0, hno, hrow⟩ := hcond 0 (by simp)
      rw [show k0 + 0 = k0 by omega] at hk0 hno hrow
      show (recv mpool (1 + i) (T + k0)).bind _ = _
      rw [hrecv, recv_statsMPool T others i k0 hi hk0, Option.some_bind]
      have hmat : ((others.get ⟨i, hi⟩).get ⟨k0, hk0⟩).2 =
          matAt (others.get ⟨i, hi⟩) k0 := by
        unfold matAt
        rw [List.getElem?_eq_getElem (by simpa [List.get_eq_getElem] using hk0)]
        simp [List.get_eq_getElem]
      rw [hmat]
      have hno' : no.getD (1 + i) 0 = rowsAt (others.get ⟨i, hi⟩) k0 := by
        simpa using hno
      have hrow' : ∀ row ∈ matAt (others.get ⟨i, hi⟩) k0,
          row.length = (m.headD []).length := by
        simpa using hrow
      rw [if_pos ⟨by rw [matAt_length, hno'], hrow'⟩]
      rw [ih ms (k0 + 1) (by simpa using hlen) (fun j hj => by
        obtain ⟨h1, h2, h3⟩ := hcond (j + 1) (by simpa using Nat.succ_lt_succ hj)
        rw [show k0 + (j + 1) = k0 + 1 + j by omega] at h1 h2 h3
        exact ⟨h1, by simpa using h2, by simpa using h3⟩)]
      rfl

theorem getD_zipWith_append (ms ds : List Mat) (j : Nat)
    (h1 : j < ms.length) (h2 : j < ds.length) :
    (List.zipWith (fun m d => m ++ d) ms ds).getD j [] =
      ms.getD j [] ++ ds.getD j [] := by
  rw [List.getD_eq_getElem?_getD, List.getD_eq_getElem?_getD,
    List.getD_eq_getElem?_getD]
  rw [List.getElem?_zipWith, List.getElem?_eq_getElem h1, List.getElem?_eq_getElem h2]
  rfl

theorem statsMatsFold (T : Nat) (others : List StatsState) (len : Nat)
    (W : List Nat) (numobj : List (List Nat)) (mpool : Pool Mat)
    (hrecv : ∀ src tag, recv mpool src tag = recv (statsMPool T others) src tag)
    (hnumlen : numobj.length = len)
    (hLo : ∀ st ∈ others, st.length = len)
    (hWo : ∀ st ∈ others, ∀ k, k < st.length → ∀ row ∈ matAt st k,
      row.length = W.getD k 0)
    (hnum : ∀ j c, 1 ≤ c → (hc : c - 1 < others.length) → j < len →
      (numobj.getD j []).getD c 0 = rowsAt (others.get ⟨c - 1, hc⟩) j) :
    ∀ (os : List StatsState) (c0 : Nat) (ms : List Mat),
    c0 - 1 + os.length = others.length → others.drop (c0 - 1) = os → 1 ≤ c0 →
    ms.length = len →
    (∀ j, j < len → ms.getD j [] ≠ [] ∧
      ((ms.getD j []).headD []).length = W.getD j 0) →
    (List.range' c0 (others.length + 1 - c0)).foldlM
        (fun acc c => statsRecvCore T c mpool 0 numobj acc) ms =
      some (os.foldl
        (fun acc st => List.zipWith (fun m d => m ++ d) acc (matsFrom st 0 len)) ms) := by
  intro os
  induction os with
  | nil =>
    intro c0 ms hco hdrop hc1 hms hinv
    simp only [List.length_nil, Nat.add_zero] at hco
    rw [show others.length + 1 - c0 = 0 by omega]
    rfl
  | cons st os ih =>
    intro c0 ms hco hdrop hc1 hms hinv
    have hcb : c0 - 1 < others.length := by simp at hco; omega
    have hgetst : others.get ⟨c0 - 1, hcb⟩ = st := by
      have h0 : (others.drop (c0 - 1))[0]? = some st := by rw [hdrop]; simp
      rw [List.getElem?_drop, Nat.add_zero, List.getElem?_eq_getElem hcb] at h0
      have := Option.some.inj h0
      simpa [List.get_eq_getElem] using this
    have hstmem : st ∈ others := by
      rw [← hgetst]
      exact List.get_mem others (c0 - 1) hcb
    have hstlen : st.length = len := hLo st hstmem
    rw [show others.length + 1 - c0 = (others.length - c0) + 1 by omega]
    rw [show List.range' c0 ((others.length - c0) + 1) =
      c0 :: List.range' (c0 + 1) (others.length - c0) from rfl]
    rw [List.foldlM_cons]
    have hstep := statsRecvCore_spec T others (c0 - 1) hcb c0 (by omega) mpool hrecv
      numobj ms 0 (by omega) (fun j hj => by
        rw [hgetst]
        refine ⟨by omega, ?_, ?_⟩
        · rw [show (0 : Nat) + j = j by omega]
          have := hnum j c0 hc1 hcb (by omega)
          rw [hgetst] at this
          exact this
        · rw [show (0 : Nat) + j = j by omega]
          intro row hrowmem
          rw [hWo st hstmem j (by omega) row hrowmem]
          exact ((hinv j (by omega)).2).symm)
    rw [hgetst] at hstep
    rw [hstep]
    simp only [Option.bind_eq_bind, Option.some_bind]
    rw [show others.length - c0 = others.length + 1 - (c0 + 1) by omega]
    rw [hnumlen]
    rw [ih (c0 + 1) (List.zipWith (fun m d => m ++ d) ms (matsFrom st 0 len))
      (by simp at hco ⊢; omega)
      (by rw [show c0 + 1 - 1 = (c0 - 1) + 1 by omega, ← List.tail_drop, hdrop]; rfl)
      (by omega)
      (by rw [List.length_zipWith, matsFrom_length, hms]; simp)
      (fun j hj => by
        have hz := getD_zipWith_append ms (matsFrom st 0 len) j
          (by omega) (by rw [matsFrom_length]; omega)
        rw [hz]
        obtain ⟨hne, hhead⟩ := hinv j hj
        constructor
        · intro hcontra
          exact hne (List.append_eq_nil.mp hcontra).1
        · rw [headD_append_left _ _ _ hne]
          exact hhead)]
    rfl

theorem foldl_append_getElem (os : List StatsState) (len : Nat) :
    ∀ (ms : List Mat), ms.length = len → ∀ k,
    (os.foldl (fun acc st => List.zipWith (fun m d => m ++ d) acc
        (matsFrom st 0 len)) ms)[k]? =
      (ms[k]?).map (fun m0 => m0 ++ (os.map (fun st => matAt st k)).flatten) := by
  induction os with
  | nil =>
    intro ms hms k
    cases hk : ms[k]? with
    | none => rw [List.foldl_nil, hk]; rfl
    | some m => rw [List.foldl_nil, hk]; simp
  | cons st os ih =>
    intro ms hms k
    rw [List.foldl_cons]
    rw [ih (List.zipWith (fun m d => m ++ d) ms (matsFrom st 0 len))
      (by rw [List.length_zipWith, matsFrom_length, hms]; simp) k]
    rw [List.getElem?_zipWith]
    by_cases hk : k < len
    · rw [matsFrom_getElem? st 0 len k hk, show 0 + k = k by omega]
      rcases hmk : ms[k]? with _ | m0
      · rw [List.getElem?_eq_none_iff] at hmk
        omega
      · simp [List.append_assoc]
    · have h1 : ms[k]? = none := by
        rw [List.getElem?_eq_none_iff]
        omega
      have h2 : (matsFrom st 0 len)[k]? = none := by
        rw [List.getElem?_eq_none_iff, matsFrom_length]
        omega
      rw [h1, h2]
      rfl

/-- C4: with every active process registered on the same labels in the same
order, the leader's merged matrix for each label is its own samples followed
by each other rank's samples in ascending rank order, rows in per-process
insertion order — and this holds for any arrival order of the messages
(any permutation of the two canonical message pools), since receives match
on `(source, tag)`. -/
theorem get_stats_rank_order (T : Nat) (leader : StatsState)
    (others : List StatsState) (L : List String) (W : List Nat)
    (cpool : Pool Nat) (mpool : Pool Mat)
    (hL : ∀ st ∈ leader :: others, st.map (fun e => e.1) = L)
    (hlne : ∀ k, k < leader.length → matAt leader k ≠ [])
    (hWl : ∀ k, k < leader.length → ∀ row ∈ matAt leader k, row.length = W.getD k 0)
    (hWo : ∀ st ∈ others, ∀ k, k < st.length → ∀ row ∈ matAt st k,
      row.length = W.getD k 0)
    (hcp : cpool.Perm (statsCPool T others))
    (hmp : mpool.Perm (statsMPool T others)) :
    getStatsLeader T (others.length + 1) leader cpool mpool =
      some ((List.range L.length).map (fun k =>
        (L.getD k "",
          matAt leader k ++ (others.map (fun st => matAt st k)).flatten))) := by
  have hrecvC : ∀ src tag, recv cpool src tag = recv (statsCPool T others) src tag := by
    intro src tag
    apply recv_perm src tag hcp.symm
    unfold statsCPool
    exact filter_key_mkPool_le_one _ _ _ _ _
  have hrecvM : ∀ src tag, recv mpool src tag = recv (statsMPool T others) src tag := by
    intro src tag
    apply recv_perm src tag hmp.symm
    unfold statsMPool
    exact filter_key_mkPool_le_one _ _ _ _ _
  have hLleader : leader.map (fun e => e.1) = L :=
    hL leader (List.mem_cons_self leader others)
  have hLlen : leader.length = L.length := by
    have := congrArg List.length hLleader
    simpa using this
  have hothersLen : ∀ st ∈ others, st.length = L.length := by
    intro st hst
    have := congrArg List.length (hL st (List.mem_cons_of_mem leader hst))
    simpa using this
  have hmatl : ∀ k, k < leader.length →
      (leader.map (fun e => e.2)).getD k [] = matAt leader k := by
    intro k hk
    rw [List.getD_eq_getElem?_getD, List.getElem?_map, List.getElem?_eq_getElem hk]
    unfold matAt
    rw [List.getElem?_eq_getElem hk]
  unfold getStatsLeader
  rw [statsNumobj_spec T others cpool hrecvC leader 0 (fun st hst j hj => by
    rw [hothersLen st hst]
    omega)]
  rw [Option.some_bind]
  rw [statsMatsFold T others L.length W (specNumobj others 0 leader) mpool hrecvM
    (by rw [specNumobj_length]; exact hLlen)
    hothersLen hWo
    (fun j c hc1 hc hj => by
      have hinner : (specNumobj others 0 leader).getD j [] =
          (leader.get ⟨j, by omega⟩).2.length ::
            others.map (fun st => rowsAt st j) := by
        rw [List.getD_eq_getElem?_getD, specNumobj_getElem?,
          List.getElem?_eq_getElem (show j < leader.length by omega)]
        simp [List.get_eq_getElem]
      rw [hinner]
      obtain ⟨c2, rfl⟩ : ∃ c2, c = c2 + 1 := ⟨c - 1, by omega⟩
      have hc2 : c2 < others.length := by simpa using hc
      rw [List.getD_cons_succ]
      rw [List.getD_eq_getElem?_getD, List.getElem?_map,
        List.getElem?_eq_getElem hc2]
      simp [List.get_eq_getElem])
    others 1 (leader.map (fun e => e.2)) (by simp) (by simp) (le_refl 1)
    (by rw [List.length_map]; exact hLlen)
    (fun j hj => by
      rw [hmatl j (by omega)]
      refine ⟨hlne j (by omega), ?_⟩
      exact hWl j (by omega) _ (headD_mem _ _ (hlne j (by omega))))]
  rw [Option.map_some']
  apply congrArg some
  apply List.ext_getElem?
  intro k
  rw [List.getElem?_zipWith]
  rw [foldl_append_getElem others L.length (leader.map (fun e => e.2))
    (by rw [List.length_map]; exact hLlen) k]
  rw [List.getElem?_map]
  by_cases hk : k < L.length
  · rw [List.getElem?_map, List.getElem?_range hk]
    rw [List.getElem?_eq_getElem (show k < leader.length by omega)]
    have hlab : leader[k].1 = L.getD k "" := by
      have h1 : (leader.map (fun e => e.1))[k]? = L[k]? := by rw [hLleader]
      rw [List.getElem?_map,
        List.getElem?_eq_getElem (show k < leader.length by omega),
        List.getElem?_eq_getElem (show k < L.length by omega)] at h1
      have h2 := Option.some.inj h1
      rw [List.getD_eq_getElem?_getD, List.getElem?_eq_getElem hk]
      simpa using h2
    have hm : leader[k].2 = matAt leader k := by
      unfold matAt
      rw [List.getElem?_eq_getElem (show k < leader.length by omega)]
      rfl
    simp only [Option.map_some']
    rw [hlab, hm]
  · have h1 : leader[k]? = none := by
      rw [List.getElem?_eq_none_iff]
      omega
    have h2 : ((List.range L.length).map (fun k =>
        (L.getD k "",
          matAt leader k ++ (others.map (fun st => matAt st k)).flatten)))[k]? =
        none := by
      rw [List.getElem?_eq_none_iff, List.length_map, List.length_range]
      omega
    rw [h1, h2]

/-- Witness for C4: three processes, one label `x`, each holding the single
sample `[rank]`; the pools are fed in reversed (permuted) arrival order and
the leader still merges `[[0],[1],[2]]` in rank order. -/
theorem get_stats_rank_order_witness :
    getStatsLeader 333
        (([[("x", [[1]])], [("x", [[2]])]] : List StatsState).length + 1)
        [("x", [[0]])]
        ((statsCPool 333 [[("x", [[1]])], [("x", [[2]])]]).reverse)
        ((statsMPool 333 [[("x", [[1]])], [("x", [[2]])]]).reverse) =
      some [("x", [[0], [1], [2]])] := by
  have h := get_stats_rank_order 333 [("x", [[0]])]
    [[("x", [[1]])], [("x", [[2]])]] ["x"] [1]
    ((statsCPool 333 [[("x", [[1]])], [("x", [[2]])]]).reverse)
    ((statsMPool 333 [[("x", [[1]])], [("x", [[2]])]]).reverse)
    (by decide) (by decide) (by decide) (by decide)
    (List.reverse_perm _) (List.reverse_perm _)
  rw [h]
  rfl

end Orphics
